import Mathlib

/-!
Shallow embedding of the core of `binance-futures-quant-dashboard`:

* `src/storage/db.py` — the Tick Store (`insert_tick`, `get_ticks`) and the
  Bar Aggregator (`resample_ticks_to_bars`).  The SQLite table of ticks is
  modelled as a `List Tick` in insertion (rowid) order; a query without an
  `ORDER BY` is modelled as returning matching rows in table order.  The
  persisted bar cache is a `List Bar` in insertion order.
* `src/analytics/pairs.py` — the Pairs Analytics Engine
  (`compute_hedge_ratio`, `compute_spread_and_zscore`).  A pandas `Series`
  indexed by timestamps is modelled as a `List (Nat × PFloat)` sorted by
  timestamp; `PFloat` models the float values that actually flow through the
  code: a rational number, NaN (missing value), or an infinity produced by
  division by zero.  Prices and quantities are embedded as `ℚ`: every claim
  is about the windowing, alignment and aggregation algorithm, not about
  rounding of IEEE floats.

Timestamps are seconds since the UTC epoch, as `Nat`.
-/

/-- A float value as it flows through the pandas pipeline: a finite rational,
NaN (pandas missing value), or an infinity (the result of dividing a nonzero
number by zero in numpy).  The sign of the infinity is not tracked: no code
path under verification inspects it. -/
inductive PFloat where
  | nan : PFloat
  | inf : PFloat
  | val : ℚ → PFloat
deriving DecidableEq, Repr

namespace PFloat

/-- Subtraction with IEEE-style NaN propagation (`spread - roll_mean`). -/
def sub : PFloat → PFloat → PFloat
  | val a, val b => val (a - b)
  | inf, val _ => inf
  | val _, inf => inf
  | inf, inf => nan
  | _, _ => nan

/-- Multiplication with NaN propagation (`beta * px_y`). -/
def mul : PFloat → PFloat → PFloat
  | val a, val b => val (a * b)
  | inf, val b => if b = 0 then nan else inf
  | val a, inf => if a = 0 then nan else inf
  | inf, inf => inf
  | _, _ => nan

/-- Division as numpy performs it elementwise: NaN propagates; a zero
denominator gives NaN for `0 / 0` and an infinity for `a / 0`, `a ≠ 0`
(numpy emits a warning, never an exception). -/
def div : PFloat → PFloat → PFloat
  | nan, _ => nan
  | _, nan => nan
  | val a, val b => if b = 0 then (if a = 0 then nan else inf) else val (a / b)
  | inf, val _ => inf
  | val _, inf => val 0
  | inf, inf => nan

end PFloat

/-- One row of the `ticks` table: `Tick(symbol, ts, price, qty)` in
`src/storage/db.py`. -/
structure Tick where
  symbol : String
  ts : Nat
  price : ℚ
  qty : ℚ
deriving DecidableEq, Repr

/-- One row of the `bars` table / one element of the frame returned by
`resample_ticks_to_bars`.  The column `open` is spelled `open_px` because
`open` is a Lean keyword; `ts` is the bucket start. -/
structure Bar where
  symbol : String
  timeframe : String
  ts : Nat
  open_px : ℚ
  high : ℚ
  low : ℚ
  close : ℚ
  volume : ℚ
deriving DecidableEq, Repr

/-- `insert_tick(symbol, ts, price, qty)`: adds the row and commits.  The
source performs no validation whatsoever — every tick is appended to the
table unconditionally and the function has no error path. -/
def insert_tick (store : List Tick) (t : Tick) : List Tick :=
  store ++ [t]

/-- `get_ticks(symbols, minutes_back)`: `cutoff = utcnow() - minutes_back`
minutes; the query filters `symbol IN symbols` and `ts >= cutoff` with no
`ORDER BY`, so rows come back in table (insertion) order.  `now` is the
wall-clock instant `datetime.utcnow()` of the call. -/
def get_ticks (store : List Tick) (symbols : List String)
    (now : Nat) (minutes_back : Nat) : List Tick :=
  let cutoff := now - minutes_back * 60
  (store.filter (fun t => symbols.contains t.symbol)).filter
    (fun t => decide (cutoff ≤ t.ts))

/-- The literal `freq_map = {"1s": "1S", "1m": "1T", "5m": "5T"}` of
`resample_ticks_to_bars`, with each pandas frequency string replaced by its
bucket length in seconds. -/
def freq_map : List (String × Nat) :=
  [("1s", 1), ("1m", 60), ("5m", 300)]

/-- `freq = freq_map.get(timeframe, "1T")`: an unrecognized timeframe
silently falls back to the 1-minute frequency (60 seconds). -/
def resolveFreq (timeframe : String) : Nat :=
  (freq_map.lookup timeframe).getD 60

/-- The bucket index of a tick: pandas `resample` with frequencies `1S`,
`1T`, `5T` uses half-open buckets `[b*freq, (b+1)*freq)` aligned to the
epoch, so a tick at `ts` lands in bucket `ts / freq`. -/
def bucketOf (freq : Nat) (t : Tick) : Nat :=
  t.ts / freq

/-- The ticks of `sub` that fall into bucket `b`, in their order in `sub`. -/
def bucketTicks (freq : Nat) (sub : List Tick) (b : Nat) : List Tick :=
  sub.filter (fun t => bucketOf freq t == b)

/-- The row of bucket `b` in
`sub["price"].resample(freq).agg(["first","max","min","last"])` joined with
`sub["qty"].resample(freq).sum()`, after
`dropna(subset=["open","high","low","close"])`: an empty bucket is the
all-NaN row that `dropna` removes (`none`); a non-empty one aggregates
`first`/`max`/`min`/`last` over the prices and sums the quantities.
`first`/`last` take the values in index order, which for a time-sorted frame
is chronological order. -/
def barOfBucket (timeframe : String) (freq : Nat) (sym : String) (b : Nat) :
    List Tick → Option Bar
  | [] => none
  | t0 :: rest => some
      { symbol := sym
        timeframe := timeframe
        ts := b * freq
        open_px := t0.price
        high := rest.foldl (fun m u => max m u.price) t0.price
        low := rest.foldl (fun m u => min m u.price) t0.price
        close := ((rest.getLast?).getD t0).price
        volume := (t0 :: rest).foldl (fun s u => s + u.qty) 0 }

/-- One symbol's pass of `resample_ticks_to_bars`: `sub = df[df.symbol == sym]`,
then the resample/agg/join/dropna pipeline.  Pandas `resample` produces one
row per bucket in the dense range from the first to the last occupied
bucket; `barOfBucket` drops the empty ones. -/
def barsForSymbol (timeframe : String) (freq : Nat) (sym : String)
    (ticks : List Tick) : List Bar :=
  let sub := ticks.filter (fun t => t.symbol == sym)
  match sub.map (bucketOf freq) with
  | [] => []
  | b0 :: bs =>
    let bmin := bs.foldl min b0
    let bmax := bs.foldl max b0
    ((List.range (bmax + 1 - bmin)).map (fun i => bmin + i)).filterMap fun b =>
      barOfBucket timeframe freq sym b (bucketTicks freq sub b)

/-- `resample_ticks_to_bars(symbols, timeframe, minutes_back)` up to (but not
including) the persistence side effect: fetch recent ticks, resample each
requested symbol, concatenate. -/
def resample_ticks_to_bars (store : List Tick) (symbols : List String)
    (timeframe : String) (now : Nat) (minutes_back : Nat) : List Bar :=
  let freq := resolveFreq timeframe
  let df := get_ticks store symbols now minutes_back
  symbols.flatMap (fun sym => barsForSymbol timeframe freq sym df)

/-- The persistence side effect at the end of `resample_ticks_to_bars`: every
computed bar is `session.add`ed to the `bars` table and committed, with no
check for existing rows. -/
def persist_bars (table : List Bar) (bars : List Bar) : List Bar :=
  table ++ bars

/-- A full call of `resample_ticks_to_bars`, returning the bars and the new
state of the persisted `bars` table. -/
def resample_and_persist (store : List Tick) (table : List Bar)
    (symbols : List String) (timeframe : String) (now : Nat)
    (minutes_back : Nat) : List Bar × List Bar :=
  let bars := resample_ticks_to_bars store symbols timeframe now minutes_back
  (bars, persist_bars table bars)

/-! ## `src/analytics/pairs.py` -/

/-- A pandas `Series` of prices indexed by timestamp: index‑value pairs in
index order (the series handed to the analytics are timestamp-sorted). -/
abbrev PSeries := List (Nat × PFloat)

/-- The index of a series. -/
def seriesTimestamps (s : PSeries) : List Nat :=
  s.map (fun p => p.1)

/-- The value of a series at timestamp `t`: NaN when `t` is not in the
index, exactly how pandas alignment fills a missing label. -/
def getTs (s : PSeries) (t : Nat) : PFloat :=
  ((s.find? (fun p => p.1 == t)).map (fun p => p.2)).getD PFloat.nan

/-- `pd.concat([px_x, px_y], axis=1, join="inner").dropna()`: the rows whose
timestamp is in both indexes and whose two values are both non-NaN, in the
order of the first series. -/
def alignedPairs (x y : PSeries) : List (Nat × ℚ × ℚ) :=
  x.filterMap fun p =>
    match p.2, (y.find? (fun q => q.1 == p.1)).map (fun q => q.2) with
    | PFloat.val a, some (PFloat.val b) => some (p.1, a, b)
    | _, _ => none

/-- `compute_hedge_ratio(px_x, px_y)`: inner-join and drop NaN rows; fewer
than 10 aligned rows returns `np.nan` (here `none`); otherwise
`OLS(y, add_constant(x)).fit().params[1]`, the slope of the least-squares
fit `X = a + b·Y`, which for a nonsingular design matrix is the closed form
`(n·Σxy − Σx·Σy) / (n·Σy² − (Σy)²)` (regressand `x = px_x`,
regressor `y = px_y`). -/
def compute_hedge_ratio (x y : PSeries) : Option ℚ :=
  let al := alignedPairs x y
  if al.length < 10 then none
  else
    let n : ℚ := al.length
    let sx := (al.map fun p => p.2.1).sum
    let sy := (al.map fun p => p.2.2).sum
    let sxy := (al.map fun p => p.2.1 * p.2.2).sum
    let syy := (al.map fun p => p.2.2 * p.2.2).sum
    some ((n * sxy - sx * sy) / (n * syy - sy * sy))

/-- Insertion into a sorted duplicate-free timestamp list. -/
def insertTs (t : Nat) : List Nat → List Nat
  | [] => [t]
  | u :: us =>
    if t < u then t :: u :: us
    else if t = u then u :: us
    else u :: insertTs t us

/-- The sorted, duplicate-free union of two timestamp lists: the index on
which pandas aligns two series for arithmetic. -/
def mergeUnion (a b : List Nat) : List Nat :=
  a.foldr insertTs (b.foldr insertTs [])

/-- `spread = px_x - beta * px_y`: pandas aligns the two series on the union
of their indexes; a timestamp missing from either side contributes NaN to
that side, and NaN propagates through `-` and `*`. -/
def spreadSeries (x y : PSeries) (beta : ℚ) : PSeries :=
  (mergeUnion (seriesTimestamps x) (seriesTimestamps y)).map fun t =>
    (t, PFloat.sub (getTs x t) (PFloat.mul (PFloat.val beta) (getTs y t)))

/-- The trailing positional window of width `w` ending at position `i`:
elements at positions `max 0 (i+1-w) … i`. -/
def windowAt (w : Nat) (vs : List PFloat) (i : Nat) : List PFloat :=
  (vs.take (i + 1)).drop (i + 1 - w)

/-- The non-NaN values of a window, in order. -/
def finiteVals (ws : List PFloat) : List ℚ :=
  ws.filterMap fun v =>
    match v with
    | PFloat.val q => some q
    | _ => none

/-- `rolling(window=w, min_periods=minp).mean()` at position `i`: the mean of
the non-NaN values in the trailing window when there are at least
`max minp 1` of them, NaN otherwise. -/
def rollMeanAt (w minp : Nat) (vs : List PFloat) (i : Nat) : PFloat :=
  let xs := finiteVals (windowAt w vs i)
  if minp ≤ xs.length ∧ 1 ≤ xs.length then
    PFloat.val (xs.sum / (xs.length : ℚ))
  else PFloat.nan

/-- The square of `rolling(window=w, min_periods=minp).std()` at position
`i`: the sample variance (ddof = 1) of the non-NaN values in the trailing
window when there are at least `max minp 2` of them, NaN otherwise (pandas
returns NaN for a single observation with ddof = 1).  The standard deviation
is the square root of this; since the square root maps NaN to NaN, zero to
zero and positives to positives, the NaN/zero/infinity classification of the
z-score below — all any claim concerns — is the same whether the variance or
its root is the divisor. -/
def rollVarAt (w minp : Nat) (vs : List PFloat) (i : Nat) : PFloat :=
  let xs := finiteVals (windowAt w vs i)
  if minp ≤ xs.length ∧ 2 ≤ xs.length then
    let m := xs.sum / (xs.length : ℚ)
    PFloat.val ((xs.map (fun q => (q - m) * (q - m))).sum / ((xs.length : ℚ) - 1))
  else PFloat.nan

/-- `compute_spread_and_zscore(px_x, px_y, window)`: if the hedge ratio is
NaN (fewer than 10 aligned observations) return two empty series; otherwise
`spread = px_x - beta*px_y` over the union-aligned index, and
`z = (spread - roll_mean) / roll_std` with
`rolling(window=window, min_periods=window // 2)` statistics (the divisor is
modelled by `rollVarAt`, see there). -/
def compute_spread_and_zscore (x y : PSeries) (window : Nat) :
    PSeries × PSeries :=
  match compute_hedge_ratio x y with
  | none => ([], [])
  | some beta =>
    let spread := spreadSeries x y beta
    let vs := spread.map (fun p => p.2)
    let z := spread.enum.map fun p =>
      (p.2.1,
        PFloat.div (PFloat.sub p.2.2 (rollMeanAt window (window / 2) vs p.1))
          (rollVarAt window (window / 2) vs p.1))
    (spread, z)

/-! ## Concrete data used by counterexamples and witnesses -/

/-- A tick in the very first 1-minute bucket. -/
def exTick : Tick :=
  { symbol := "A", ts := 0, price := 10, qty := 1 }

/-- A one-row tick store. -/
def exStore : List Tick :=
  [exTick]

/-- A tick with an empty symbol: the validation the spec requires would
reject it. -/
def badTick : Tick :=
  { symbol := "", ts := 0, price := 1, qty := 1 }

/-- A well-formed tick for the append/query round trip. -/
def wTick : Tick :=
  { symbol := "BTCUSDT", ts := 100, price := 5, qty := 1 }

/-- A tick at ts = 3, inserted after `tLate`. -/
def tEarly : Tick :=
  { symbol := "A", ts := 3, price := 1, qty := 1 }

/-- A tick at ts = 5, inserted before `tEarly`. -/
def tLate : Tick :=
  { symbol := "A", ts := 5, price := 1, qty := 1 }

/-! ## Claims -/

/-- A bar with its recorded timeframe label blanked: the bars of two
resample calls agree under `stripTf` exactly when they agree in everything
but the label string. -/
def stripTf (b : Bar) : Bar :=
  { b with timeframe := "" }

/-- Up to the recorded label, `barOfBucket` does not depend on the
timeframe string. -/
theorem stripTf_barOfBucket (tf1 tf2 : String) (freq : Nat) (sym : String)
    (b : Nat) (l : List Tick) :
    (barOfBucket tf1 freq sym b l).map stripTf =
      (barOfBucket tf2 freq sym b l).map stripTf := by
  cases l <;> rfl

/-- Up to the recorded label, `barsForSymbol` does not depend on the
timeframe string. -/
theorem stripTf_barsForSymbol (tf1 tf2 : String) (freq : Nat) (sym : String)
    (ticks : List Tick) :
    (barsForSymbol tf1 freq sym ticks).map stripTf =
      (barsForSymbol tf2 freq sym ticks).map stripTf := by
  unfold barsForSymbol
  cases h : (ticks.filter (fun t => t.symbol == sym)).map (bucketOf freq) with
  | nil => simp only [h]
  | cons b0 bs =>
    simp only [h, List.map_filterMap]
    exact List.filterMap_congr (fun b _ => stripTf_barOfBucket tf1 tf2 freq sym b _)

/-- **C2.** The claim says an unrecognized timeframe fails with a typed
`InvalidArgument` error.  The code instead takes
`freq_map.get(timeframe, "1T")`: the unknown timeframe `"2h"` resolves to
the 1-minute default frequency, and for every store and symbol set the
resample proceeds, producing exactly the 1-minute bars (only the recorded
timeframe label differs). -/
theorem unknown_timeframe_silently_defaults :
    resolveFreq "2h" = resolveFreq "1m" ∧
    ∀ store syms now mb,
      (resample_ticks_to_bars store syms "2h" now mb).map stripTf =
        (resample_ticks_to_bars store syms "1m" now mb).map stripTf := by
  refine ⟨rfl, fun store syms now mb => ?_⟩
  unfold resample_ticks_to_bars
  simp only [List.map_flatMap]
  exact List.flatMap_congr (fun sym _ => stripTf_barsForSymbol "2h" "1m" _ sym _)

/-- **C3.** The claim says re-resampling the same ticks leaves exactly one
persisted row per (symbol, timeframe, bucket_start).  The code re-appends
every computed bar on every call: after two identical calls the `bars`
table holds two rows for the key `("A", "1m", 0)`. -/
theorem resample_persist_duplicates :
    (((resample_and_persist exStore
          (resample_and_persist exStore [] ["A"] "1m" 100 60).2
          ["A"] "1m" 100 60).2).filter
        (fun b => b.symbol == "A" && b.timeframe == "1m" && b.ts == 0)).length
      = 2 := by
  decide

/-- **C4, counterexample.** The claim says a tick with an empty symbol makes
`append` fail with a typed `ValidationError` and record nothing.
`insert_tick` has no validation and no error path: the empty-symbol tick is
recorded. -/
theorem insert_tick_no_validation :
    (insert_tick [] badTick).length = 1 ∧
    badTick ∈ insert_tick [] badTick ∧
    badTick.symbol = "" := by
  decide

/-- **C4, amended.** `insert_tick` performs no validation at all and never
fails: every tick — empty symbol or not — is appended to the table, and a
subsequent query covering its symbol and timestamp returns it. -/
theorem insert_tick_records_unconditionally (store : List Tick) (t : Tick)
    (syms : List String) (now mb : Nat)
    (hsym : t.symbol ∈ syms) (hts : now - mb * 60 ≤ t.ts) :
    insert_tick store t = store ++ [t] ∧
    t ∈ get_ticks (insert_tick store t) syms now mb := by
  refine ⟨rfl, ?_⟩
  unfold get_ticks insert_tick
  simp only [List.filter_append, List.mem_append, List.mem_filter,
    List.filter_cons, List.filter_nil]
  right
  simp [hsym, hts, List.elem_iff]

/-- Witness for C4 amended: the round trip at a concrete tick. -/
theorem insert_tick_records_unconditionally_witness :
    insert_tick [] wTick = [wTick] ∧
    wTick ∈ get_ticks (insert_tick [] wTick) ["BTCUSDT"] 100 1 :=
  insert_tick_records_unconditionally [] wTick ["BTCUSDT"] 100 1
    (by decide) (by decide)

/-- **C8, counterexample.** The claim says query results are ordered by
timestamp ascending within each symbol.  The query has no `ORDER BY`: rows
come back in table (insertion) order, and a tick inserted after a
later-timestamped one of the same symbol is returned after it. -/
theorem get_ticks_not_time_sorted :
    get_ticks [tLate, tEarly] ["A"] 10 1 = [tLate, tEarly] ∧
    ¬ ((get_ticks [tLate, tEarly] ["A"] 10 1).map Tick.ts).Sorted (· ≤ ·) := by
  constructor
  · rfl
  · decide

/-- **C8, amended.** `get_ticks` returns exactly the stored ticks whose
symbol is in the requested set and whose timestamp is at least
`now - minutes_back` minutes — a lower cutoff only, no upper bound — in
store (insertion) order, with no reordering by timestamp; when nothing
matches the result is the empty list, never an error. -/
theorem get_ticks_exact_filter (store : List Tick) (syms : List String)
    (now mb : Nat) :
    get_ticks store syms now mb =
      store.filter
        (fun t => syms.contains t.symbol && decide (now - mb * 60 ≤ t.ts)) ∧
    (∀ t, t ∈ get_ticks store syms now mb ↔
      (t ∈ store ∧ t.symbol ∈ syms ∧ now - mb * 60 ≤ t.ts)) := by
  constructor
  · unfold get_ticks
    rw [List.filter_filter]
    simp only [Bool.and_comm]
  · intro t
    unfold get_ticks
    simp only [List.mem_filter, List.elem_iff, decide_eq_true_eq, and_assoc]

/-- **C10.** With fewer than 10 aligned non-NaN observations the hedge ratio
is the NaN sentinel and `compute_spread_and_zscore` returns two empty
series — no exception, no NaN-filled output. -/
theorem spread_zscore_insufficient_data (x y : PSeries) (window : Nat)
    (h : (alignedPairs x y).length < 10) :
    compute_hedge_ratio x y = none ∧
    compute_spread_and_zscore x y window = ([], []) := by
  have hr : compute_hedge_ratio x y = none := by
    unfold compute_hedge_ratio
    simp only [h, if_true]
  refine ⟨hr, ?_⟩
  unfold compute_spread_and_zscore
  rw [hr]

/-- Witness for C10: two empty input series have zero aligned observations. -/
theorem spread_zscore_insufficient_data_witness :
    compute_hedge_ratio [] [] = none ∧
    compute_spread_and_zscore [] [] 100 = ([], []) :=
  spread_zscore_insufficient_data [] [] 100 (by decide)

/-- Sums over the aligned rows of any affine combination of the regressand,
the regressor, their product, the squared regressor and a constant split
into the five aggregate sums that the OLS closed form is made of. -/
theorem sum_affine_comb (l : List (Nat × ℚ × ℚ)) (c1 c2 c3 c4 c5 : ℚ) :
    (l.map (fun p => c1 * p.2.1 + c2 * p.2.2 + c3 * (p.2.1 * p.2.2)
        + c4 * (p.2.2 * p.2.2) + c5)).sum =
      c1 * (l.map (fun p => p.2.1)).sum + c2 * (l.map (fun p => p.2.2)).sum
        + c3 * (l.map (fun p => p.2.1 * p.2.2)).sum
        + c4 * (l.map (fun p => p.2.2 * p.2.2)).sum + c5 * (l.length : ℚ) := by
  induction l with
  | nil => simp
  | cons p l ih =>
    simp only [List.map_cons, List.sum_cons, ih, List.length_cons]
    push_cast
    ring

/-- **C6.** Fewer than 10 aligned observations returns the NaN sentinel, not
an exception; at least 10 returns a (finite, rational) slope, and whenever
the design matrix is nonsingular (`n·Σy² − (Σy)² ≠ 0`) that slope, together
with the matching intercept, satisfies the two normal equations of the
least-squares fit `X = a + b·Y`: the residuals sum to zero and are
orthogonal to the regressor. -/
theorem compute_hedge_ratio_spec (x y : PSeries) :
    ((alignedPairs x y).length < 10 → compute_hedge_ratio x y = none) ∧
    (10 ≤ (alignedPairs x y).length →
      ∃ b, compute_hedge_ratio x y = some b ∧
        (((alignedPairs x y).length : ℚ)
              * ((alignedPairs x y).map (fun p => p.2.2 * p.2.2)).sum
            - ((alignedPairs x y).map (fun p => p.2.2)).sum
              * ((alignedPairs x y).map (fun p => p.2.2)).sum ≠ 0 →
          ∃ a,
            ((alignedPairs x y).map
              (fun p => p.2.1 - (a + b * p.2.2))).sum = 0 ∧
            ((alignedPairs x y).map
              (fun p => p.2.2 * (p.2.1 - (a + b * p.2.2)))).sum = 0)) := by
  set al := alignedPairs x y with hal
  set n : ℚ := (al.length : ℚ) with hn
  set sx := (al.map (fun p => p.2.1)).sum with hsx
  set sy := (al.map (fun p => p.2.2)).sum with hsy
  set sxy := (al.map (fun p => p.2.1 * p.2.2)).sum with hsxy
  set syy := (al.map (fun p => p.2.2 * p.2.2)).sum with hsyy
  constructor
  · intro h
    unfold compute_hedge_ratio
    rw [← hal]
    simp only [h, if_true]
  · intro h
    have hlt : ¬ al.length < 10 := not_lt.mpr h
    refine ⟨(n * sxy - sx * sy) / (n * syy - sy * sy), ?_, ?_⟩
    · unfold compute_hedge_ratio
      rw [← hal]
      simp only [hlt, if_false]
    · intro hden
      have hn0 : n ≠ 0 := by
        rw [hn]
        have hpos : 0 < al.length := lt_of_lt_of_le (by norm_num) h
        exact_mod_cast hpos.ne'
      set b := (n * sxy - sx * sy) / (n * syy - sy * sy) with hb
      refine ⟨(sx - b * sy) / n, ?_, ?_⟩
      · have hfun : (fun p : Nat × ℚ × ℚ =>
            p.2.1 - ((sx - b * sy) / n + b * p.2.2)) =
            (fun p : Nat × ℚ × ℚ => (1 : ℚ) * p.2.1 + (-b) * p.2.2
              + 0 * (p.2.1 * p.2.2) + 0 * (p.2.2 * p.2.2)
              + (-((sx - b * sy) / n))) := by
          funext p
          ring
        rw [hfun, sum_affine_comb, ← hsx, ← hsy, ← hsxy, ← hsyy, ← hn]
        field_simp
        ring
      · have hfun : (fun p : Nat × ℚ × ℚ =>
            p.2.2 * (p.2.1 - ((sx - b * sy) / n + b * p.2.2))) =
            (fun p : Nat × ℚ × ℚ => (0 : ℚ) * p.2.1
              + (-((sx - b * sy) / n)) * p.2.2 + 1 * (p.2.1 * p.2.2)
              + (-b) * (p.2.2 * p.2.2) + 0) := by
          funext p
          ring
        rw [hfun, sum_affine_comb, ← hsx, ← hsy, ← hsxy, ← hsyy, ← hn]
        rw [hb]
        field_simp
        ring

/-- Ten timestamps 0..9 with prices `2t + 7`: a perfectly linear regressand. -/
def wX : PSeries :=
  [(0, PFloat.val 7), (1, PFloat.val 9), (2, PFloat.val 11), (3, PFloat.val 13),
   (4, PFloat.val 15), (5, PFloat.val 17), (6, PFloat.val 19), (7, PFloat.val 21),
   (8, PFloat.val 23), (9, PFloat.val 25)]

/-- Timestamps 0..9 with prices `t`, plus a timestamp 11 that `wX` lacks. -/
def wY : PSeries :=
  [(0, PFloat.val 0), (1, PFloat.val 1), (2, PFloat.val 2), (3, PFloat.val 3),
   (4, PFloat.val 4), (5, PFloat.val 5), (6, PFloat.val 6), (7, PFloat.val 7),
   (8, PFloat.val 8), (9, PFloat.val 9), (11, PFloat.val 99)]

/-- The hedge ratio of the linear pair `wX`, `wY` is exactly 2. -/
theorem hedge_ratio_wXY : compute_hedge_ratio wX wY = some 2 := by
  have hal : alignedPairs wX wY =
      [(0, 7, 0), (1, 9, 1), (2, 11, 2), (3, 13, 3), (4, 15, 4),
       (5, 17, 5), (6, 19, 6), (7, 21, 7), (8, 23, 8), (9, 25, 9)] := by decide
  unfold compute_hedge_ratio
  rw [hal]
  norm_num [List.map_cons, List.map_nil, List.sum_cons, List.sum_nil]

/-- Witness for C6: nine aligned points give the sentinel; the ten-point pair
gives the finite slope 2. -/
theorem compute_hedge_ratio_spec_witness :
    compute_hedge_ratio (wX.take 9) wY = none ∧
    compute_hedge_ratio wX wY = some 2 :=
  ⟨(compute_hedge_ratio_spec (wX.take 9) wY).1 (by decide), hedge_ratio_wXY⟩

/-- Membership in an insertion is membership in the inserted element or the
list. -/
theorem mem_insertTs (t s : Nat) (l : List Nat) :
    t ∈ insertTs s l ↔ t = s ∨ t ∈ l := by
  induction l with
  | nil => simp [insertTs]
  | cons u us ih =>
    by_cases h1 : s < u
    · simp [insertTs, h1]
    · by_cases h2 : s = u
      · subst h2; simp [insertTs, h1]
      · simp [insertTs, h1, h2, ih]
        tauto

/-- Folding insertions accumulates memberships. -/
theorem mem_foldr_insertTs (t : Nat) (l acc : List Nat) :
    t ∈ l.foldr insertTs acc ↔ t ∈ l ∨ t ∈ acc := by
  induction l with
  | nil => simp
  | cons u us ih =>
    simp [List.foldr_cons, mem_insertTs, ih]
    tauto

/-- A timestamp is in the union index exactly when it is in either index. -/
theorem mem_mergeUnion (t : Nat) (a b : List Nat) :
    t ∈ mergeUnion a b ↔ t ∈ a ∨ t ∈ b := by
  unfold mergeUnion
  simp [mem_foldr_insertTs]

/-- On a series with a duplicate-free index, the label lookup returns the
value paired with the label. -/
theorem getTs_eq_of_mem (s : PSeries) (t : Nat) (v : PFloat)
    (hnd : (seriesTimestamps s).Nodup) (h : (t, v) ∈ s) :
    getTs s t = v := by
  induction s with
  | nil => cases h
  | cons p ps ih =>
    rcases List.mem_cons.mp h with h1 | h1
    · subst h1
      simp [getTs, List.find?]
    · have hne : p.1 ≠ t := by
        intro he
        have : t ∈ ps.map (fun q => q.1) :=
          List.mem_map.mpr ⟨(t, v), h1, rfl⟩
        rw [← he] at this
        exact (List.nodup_cons.mp (by simpa [seriesTimestamps] using hnd)).1 this
      have hbe : (p.1 == t) = false := beq_false_of_ne hne
      have : getTs ps t = v := by
        refine ih ?_ h1
        exact (List.nodup_cons.mp (by simpa [seriesTimestamps] using hnd)).2
      simpa [getTs, List.find?, hbe] using this

/-- A label missing from the index looks up as NaN. -/
theorem getTs_eq_nan_of_not_mem (s : PSeries) (t : Nat)
    (h : t ∉ seriesTimestamps s) : getTs s t = PFloat.nan := by
  unfold getTs
  rw [List.find?_eq_none.mpr ?_]
  · rfl
  · intro p hp
    simp only [beq_iff_eq]
    intro he
    exact h (by simpa [seriesTimestamps, he] using List.mem_map_of_mem (fun q => q.1) hp)

/-- When the hedge ratio is available, the first component returned by
`compute_spread_and_zscore` is the union-aligned spread. -/
theorem spread_fst_of_some (x y : PSeries) (window : Nat) (beta : ℚ)
    (hb : compute_hedge_ratio x y = some beta) :
    (compute_spread_and_zscore x y window).1 = spreadSeries x y beta := by
  unfold compute_spread_and_zscore
  rw [hb]

/-- **C5, counterexample.** The claim says a timestamp present in one series
but not the other yields no spread entry at all.  Timestamp 11 is in `wY`
but not in `wX` (which share 10 aligned observations, so the hedge ratio is
available), yet the spread carries the entry `(11, NaN)`. -/
theorem spread_keeps_unmatched_timestamp :
    (11, PFloat.nan) ∈ (compute_spread_and_zscore wX wY 4).1 ∧
    11 ∈ seriesTimestamps wY ∧ 11 ∉ seriesTimestamps wX := by
  decide

/-- **C5, amended.** The spread is computed over the *union* of the two
indexes, not their inner join: at a shared timestamp with both values
present it equals `X[t] − b·Y[t]` with `b` the hedge ratio fit on the full
aligned series, while a timestamp present in only one series is kept and
carries a NaN spread entry rather than being dropped. -/
theorem spread_union_alignment (x y : PSeries) (window : Nat) (beta : ℚ)
    (hx : (seriesTimestamps x).Sorted (· < ·))
    (hy : (seriesTimestamps y).Sorted (· < ·))
    (hb : compute_hedge_ratio x y = some beta) :
    seriesTimestamps (compute_spread_and_zscore x y window).1 =
      mergeUnion (seriesTimestamps x) (seriesTimestamps y) ∧
    (∀ t a b, (t, PFloat.val a) ∈ x → (t, PFloat.val b) ∈ y →
      (t, PFloat.val (a - beta * b)) ∈ (compute_spread_and_zscore x y window).1) ∧
    (∀ t, t ∈ seriesTimestamps x → t ∉ seriesTimestamps y →
      (t, PFloat.nan) ∈ (compute_spread_and_zscore x y window).1) ∧
    (∀ t, t ∈ seriesTimestamps y → t ∉ seriesTimestamps x →
      (t, PFloat.nan) ∈ (compute_spread_and_zscore x y window).1) := by
  have hfst := spread_fst_of_some x y window beta hb
  rw [hfst]
  refine ⟨?_, ?_, ?_, ?_⟩
  · unfold spreadSeries seriesTimestamps
    rw [List.map_map]
    exact List.map_id _
  · intro t a b hxa hyb
    have hta : getTs x t = PFloat.val a := getTs_eq_of_mem x t _ hx.nodup hxa
    have htb : getTs y t = PFloat.val b := getTs_eq_of_mem y t _ hy.nodup hyb
    have ht : t ∈ mergeUnion (seriesTimestamps x) (seriesTimestamps y) :=
      (mem_mergeUnion t _ _).mpr
        (Or.inl (List.mem_map.mpr ⟨(t, PFloat.val a), hxa, rfl⟩))
    have hmem : (t, PFloat.sub (getTs x t)
        (PFloat.mul (PFloat.val beta) (getTs y t))) ∈ spreadSeries x y beta :=
      List.mem_map_of_mem _ ht
    rw [hta, htb] at hmem
    simpa [PFloat.sub, PFloat.mul] using hmem
  · intro t htx hty
    have hnan : getTs y t = PFloat.nan := getTs_eq_nan_of_not_mem y t hty
    have ht : t ∈ mergeUnion (seriesTimestamps x) (seriesTimestamps y) :=
      (mem_mergeUnion t _ _).mpr (Or.inl htx)
    have hmem : (t, PFloat.sub (getTs x t)
        (PFloat.mul (PFloat.val beta) (getTs y t))) ∈ spreadSeries x y beta :=
      List.mem_map_of_mem _ ht
    rw [hnan] at hmem
    rcases hw : getTs x t with _ | _ | q <;> rw [hw] at hmem <;>
      simpa [PFloat.sub, PFloat.mul] using hmem
  · intro t hty htx
    have hnan : getTs x t = PFloat.nan := getTs_eq_nan_of_not_mem x t htx
    have ht : t ∈ mergeUnion (seriesTimestamps x) (seriesTimestamps y) :=
      (mem_mergeUnion t _ _).mpr (Or.inr hty)
    have hmem : (t, PFloat.sub (getTs x t)
        (PFloat.mul (PFloat.val beta) (getTs y t))) ∈ spreadSeries x y beta :=
      List.mem_map_of_mem _ ht
    rw [hnan] at hmem
    rcases hw : getTs y t with _ | _ | q <;> rw [hw] at hmem <;>
      simpa [PFloat.sub, PFloat.mul] using hmem

/-- Witness for C5 amended: at shared timestamp 5 the spread entry is
`X[5] − 2·Y[5]`. -/
theorem spread_union_alignment_witness :
    (5, PFloat.val (17 - 2 * 5)) ∈ (compute_spread_and_zscore wX wY 4).1 :=
  (spread_union_alignment wX wY 4 2 (by decide) (by decide)
      hedge_ratio_wXY).2.1 5 17 5 (by decide) (by decide)

/-- A finite value occurring in a window occurs among its non-NaN values. -/
theorem val_mem_finiteVals (q : ℚ) (ws : List PFloat) (h : PFloat.val q ∈ ws) :
    q ∈ finiteVals ws :=
  List.mem_filterMap.mpr ⟨PFloat.val q, h, rfl⟩

/-- A zero sum of squared deviations forces every value to equal the
center: the fact behind "sample variance zero means a constant window". -/
theorem sq_sum_zero_all_eq (m : ℚ) (l : List ℚ)
    (h : (l.map (fun q => (q - m) * (q - m))).sum = 0) :
    ∀ q ∈ l, q = m := by
  induction l with
  | nil => simp
  | cons a l ih =>
    simp only [List.map_cons, List.sum_cons] at h
    have h1 : 0 ≤ (a - m) * (a - m) := mul_self_nonneg _
    have h2 : 0 ≤ (l.map (fun q => (q - m) * (q - m))).sum := by
      apply List.sum_nonneg
      intro z hz
      obtain ⟨q, _, rfl⟩ := List.mem_map.mp hz
      exact mul_self_nonneg _
    have ha : (a - m) * (a - m) = 0 := by linarith
    have hrest : (l.map (fun q => (q - m) * (q - m))).sum = 0 := by linarith
    intro q hq
    rcases List.mem_cons.mp hq with h3 | h3
    · subst h3
      exact sub_eq_zero.mp (mul_self_eq_zero.mp ha)
    · exact ih hrest q h3

/-- A label lookup on a series without infinities is never an infinity. -/
theorem getTs_ne_inf (s : PSeries) (t : Nat)
    (hs : ∀ p ∈ s, p.2 ≠ PFloat.inf) : getTs s t ≠ PFloat.inf := by
  unfold getTs
  cases hf : s.find? (fun p => p.1 == t) with
  | none => simp
  | some p =>
    simp only [Option.map_some', Option.getD_some]
    exact hs p (List.mem_of_find?_eq_some hf)

/-- The spread of two infinity-free series is infinity-free: subtraction
and scaling only produce finite values or NaN. -/
theorem spread_no_inf (x y : PSeries) (beta : ℚ)
    (hx : ∀ p ∈ x, p.2 ≠ PFloat.inf) (hy : ∀ p ∈ y, p.2 ≠ PFloat.inf) :
    ∀ p ∈ spreadSeries x y beta, p.2 ≠ PFloat.inf := by
  intro p hp
  obtain ⟨t, ht, rfl⟩ := List.mem_map.mp hp
  have hgx : getTs x t ≠ PFloat.inf := getTs_ne_inf x t hx
  have hgy : getTs y t ≠ PFloat.inf := getTs_ne_inf y t hy
  rcases hX : getTs x t with _ | _ | a <;> rcases hY : getTs y t with _ | _ | b <;>
    simp_all [PFloat.sub, PFloat.mul]

/-- A width-zero trailing window is empty. -/
theorem windowAt_zero (vs : List PFloat) (i : Nat) : windowAt 0 vs i = [] := by
  unfold windowAt
  rw [List.drop_eq_nil_iff]
  have := List.length_take_le (i + 1) vs
  omega

/-- The element at a position lies inside its own trailing window. -/
theorem self_mem_windowAt (w : Nat) (vs : List PFloat) (i : Nat)
    (hw : 1 ≤ w) (hi : i < vs.length) :
    vs[i] ∈ windowAt w vs i := by
  unfold windowAt
  have hlen : ((vs.take (i + 1)).drop (i + 1 - w)).length = i + 1 - (i + 1 - w) := by
    simp [List.length_drop, List.length_take]
    omega
  have hj : i - (i + 1 - w) < ((vs.take (i + 1)).drop (i + 1 - w)).length := by
    omega
  have he : ((vs.take (i + 1)).drop (i + 1 - w))[i - (i + 1 - w)] = vs[i] := by
    rw [List.getElem_drop]
    have harith : i + 1 - w + (i - (i + 1 - w)) = i := by omega
    simp only [harith]
    rw [List.getElem_take]
  rw [← he]
  exact List.getElem_mem hj

/-- **C7.** The rolling mean and rolling standard deviation used by
`compute_spread_and_zscore` (with `min_periods = window // 2`) emit a value
at a position only when at least `window / 2` non-NaN trailing points are
available, and below that threshold the position is NaN — undefined, not
zero; and whenever the rolling standard deviation at a z-score position is
zero (a constant window), the z-score there is NaN: the division is
`0 / 0`, which numpy turns into NaN without raising, never a silent zero. -/
theorem rolling_warmup_and_zero_std (w : Nat) (vs : List PFloat) (i : Nat)
    (x y : PSeries) (window : Nat)
    (hx : ∀ p ∈ x, p.2 ≠ PFloat.inf) (hy : ∀ p ∈ y, p.2 ≠ PFloat.inf) :
    (rollMeanAt w (w / 2) vs i ≠ PFloat.nan →
      w / 2 ≤ (finiteVals (windowAt w vs i)).length) ∧
    (rollVarAt w (w / 2) vs i ≠ PFloat.nan →
      w / 2 ≤ (finiteVals (windowAt w vs i)).length) ∧
    ((finiteVals (windowAt w vs i)).length < w / 2 →
      rollMeanAt w (w / 2) vs i = PFloat.nan ∧
      rollVarAt w (w / 2) vs i = PFloat.nan) ∧
    (∀ j (hj : j < (compute_spread_and_zscore x y window).2.length),
      rollVarAt window (window / 2)
          ((compute_spread_and_zscore x y window).1.map (fun p => p.2)) j =
        PFloat.val 0 →
      ((compute_spread_and_zscore x y window).2.get ⟨j, hj⟩).2 = PFloat.nan) := by
  refine ⟨?_, ?_, ?_, ?_⟩
  · intro hne
    unfold rollMeanAt at hne
    by_cases hc : w / 2 ≤ (finiteVals (windowAt w vs i)).length ∧
        1 ≤ (finiteVals (windowAt w vs i)).length
    · exact hc.1
    · rw [if_neg hc] at hne
      exact absurd rfl hne
  · intro hne
    unfold rollVarAt at hne
    by_cases hc : w / 2 ≤ (finiteVals (windowAt w vs i)).length ∧
        2 ≤ (finiteVals (windowAt w vs i)).length
    · exact hc.1
    · rw [if_neg hc] at hne
      exact absurd rfl hne
  · intro hlt
    constructor
    · unfold rollMeanAt
      rw [if_neg (by omega)]
    · unfold rollVarAt
      rw [if_neg (by omega)]
  · intro j hj hvar
    rcases hcase : compute_hedge_ratio x y with _ | beta
    · have hempty : (compute_spread_and_zscore x y window).2 = [] := by
        unfold compute_spread_and_zscore
        rw [hcase]
      rw [hempty] at hj
      simp at hj
    · have hfst : (compute_spread_and_zscore x y window).1 = spreadSeries x y beta :=
        spread_fst_of_some x y window beta hcase
      have hsnd : (compute_spread_and_zscore x y window).2 =
          (spreadSeries x y beta).enum.map (fun p => (p.2.1,
            PFloat.div
              (PFloat.sub p.2.2
                (rollMeanAt window (window / 2)
                  ((spreadSeries x y beta).map (fun q => q.2)) p.1))
              (rollVarAt window (window / 2)
                ((spreadSeries x y beta).map (fun q => q.2)) p.1))) := by
        unfold compute_spread_and_zscore
        rw [hcase]
      rw [hfst] at hvar
      have hjs : j < (spreadSeries x y beta).length := by
        rw [hsnd] at hj
        simpa using hj
      have hz : ((compute_spread_and_zscore x y window).2.get ⟨j, hj⟩).2 =
          PFloat.div
            (PFloat.sub ((spreadSeries x y beta)[j]).2
              (rollMeanAt window (window / 2)
                ((spreadSeries x y beta).map (fun q => q.2)) j))
            (rollVarAt window (window / 2)
              ((spreadSeries x y beta).map (fun q => q.2)) j) := by
        rw [List.get_eq_getElem]
        have hje : j < (spreadSeries x y beta).enum.length := by simpa using hjs
        simp only [hsnd, List.getElem_map, List.getElem_enum]
      have hvar0 := hvar
      unfold rollVarAt at hvar0
      by_cases hc : window / 2 ≤
          (finiteVals (windowAt window
            ((spreadSeries x y beta).map (fun q => q.2)) j)).length ∧
          2 ≤ (finiteVals (windowAt window
            ((spreadSeries x y beta).map (fun q => q.2)) j)).length
      case neg =>
        rw [if_neg hc] at hvar0
        cases hvar0
      case pos =>
        rw [if_pos hc] at hvar0
        have hval : ((finiteVals (windowAt window
              ((spreadSeries x y beta).map (fun q => q.2)) j)).map
                (fun q => (q - (finiteVals (windowAt window
                  ((spreadSeries x y beta).map (fun q => q.2)) j)).sum
                    / ((finiteVals (windowAt window
                      ((spreadSeries x y beta).map (fun q => q.2)) j)).length : ℚ))
                  * (q - (finiteVals (windowAt window
                    ((spreadSeries x y beta).map (fun q => q.2)) j)).sum
                    / ((finiteVals (windowAt window
                      ((spreadSeries x y beta).map (fun q => q.2)) j)).length : ℚ)))).sum
            / (((finiteVals (windowAt window
              ((spreadSeries x y beta).map (fun q => q.2)) j)).length : ℚ) - 1) = 0 := by
          injection hvar0
        set xs := finiteVals (windowAt window
          ((spreadSeries x y beta).map (fun q => q.2)) j) with hxs
        set m := xs.sum / (xs.length : ℚ) with hm
        have hn1 : ((xs.length : ℚ) - 1) ≠ 0 := by
          have h2 : (2 : ℚ) ≤ (xs.length : ℚ) := by exact_mod_cast hc.2
          intro h0
          rw [sub_eq_zero] at h0
          rw [h0] at h2
          norm_num at h2
        have hnum : (xs.map (fun q => (q - m) * (q - m))).sum = 0 := by
          rcases div_eq_zero_iff.mp hval with h | h
          · exact h
          · exact absurd h hn1
        have hall : ∀ q ∈ xs, q = m := sq_sum_zero_all_eq m xs hnum
        have hmean : rollMeanAt window (window / 2)
            ((spreadSeries x y beta).map (fun q => q.2)) j = PFloat.val m := by
          unfold rollMeanAt
          rw [if_pos ⟨hc.1, le_trans one_le_two hc.2⟩]
        have hwpos : 1 ≤ window := by
          by_contra hw0
          have h0 : window = 0 := by omega
          have : xs = [] := by
            rw [hxs, h0, windowAt_zero]
            rfl
          rw [this] at hc
          simp at hc
        have hjvs : j < ((spreadSeries x y beta).map (fun q => q.2)).length := by
          simpa using hjs
        have hmemw : ((spreadSeries x y beta).map (fun q => q.2))[j] ∈
            windowAt window ((spreadSeries x y beta).map (fun q => q.2)) j :=
          self_mem_windowAt window _ j hwpos hjvs
        have hvj : ((spreadSeries x y beta).map (fun q => q.2))[j] =
            ((spreadSeries x y beta)[j]).2 := by
          simp
        rw [hz, hmean, hvar]
        rcases hsj : ((spreadSeries x y beta)[j]).2 with _ | _ | q
        · simp [PFloat.sub, PFloat.div]
        · exfalso
          exact spread_no_inf x y beta hx hy _ (List.getElem_mem hjs) hsj
        · have hqin : q ∈ xs := by
            rw [hxs]
            apply val_mem_finiteVals
            rw [← hsj, ← hvj]
            exact hmemw
          have hq : q = m := hall q hqin
          rw [hq]
          simp [PFloat.sub, PFloat.div]

/-- Witness for C7: with one data point and `window = 100` (so
`min_periods = 50`) both rolling statistics at position 0 are NaN. -/
theorem rolling_warmup_and_zero_std_witness :
    rollMeanAt 100 50 [PFloat.val 1] 0 = PFloat.nan ∧
    rollVarAt 100 50 [PFloat.val 1] 0 = PFloat.nan :=
  (rolling_warmup_and_zero_std 100 [PFloat.val 1] 0 [] [] 100
    (by simp) (by simp)).2.2.1 (by decide)

/-- The seed never exceeds a running maximum. -/
theorem foldl_max_le_self (l : List ℚ) (a : ℚ) : a ≤ l.foldl max a := by
  induction l generalizing a with
  | nil => simp
  | cons q l ih => exact le_trans (le_max_left a q) (ih (max a q))

/-- Every element is bounded by the running maximum over the list. -/
theorem le_foldl_max (l : List ℚ) (a x : ℚ) (hx : x ∈ l) : x ≤ l.foldl max a := by
  induction l generalizing a with
  | nil => cases hx
  | cons q l ih =>
    rcases List.mem_cons.mp hx with h | h
    · subst h
      exact le_trans (le_max_right a x) (foldl_max_le_self l (max a x))
    · exact ih (max a q) h

/-- A running maximum is the seed or one of the elements. -/
theorem foldl_max_mem (l : List ℚ) (a : ℚ) :
    l.foldl max a = a ∨ l.foldl max a ∈ l := by
  induction l generalizing a with
  | nil => left; rfl
  | cons q l ih =>
    simp only [List.foldl_cons]
    rcases ih (max a q) with h | h
    · rcases max_choice a q with h1 | h1
      · left; rw [h, h1]
      · right; rw [h, h1]; exact List.mem_cons_self q l
    · right; exact List.mem_cons_of_mem q h

/-- A running minimum never exceeds the seed. -/
theorem foldl_min_le_self (l : List ℚ) (a : ℚ) : l.foldl min a ≤ a := by
  induction l generalizing a with
  | nil => simp
  | cons q l ih => exact le_trans (ih (min a q)) (min_le_left a q)

/-- The running minimum is a lower bound for every element. -/
theorem foldl_min_le (l : List ℚ) (a x : ℚ) (hx : x ∈ l) : l.foldl min a ≤ x := by
  induction l generalizing a with
  | nil => cases hx
  | cons q l ih =>
    rcases List.mem_cons.mp hx with h | h
    · subst h
      exact le_trans (foldl_min_le_self l (min a x)) (min_le_right a x)
    · exact ih (min a q) h

/-- A running minimum is the seed or one of the elements. -/
theorem foldl_min_mem (l : List ℚ) (a : ℚ) :
    l.foldl min a = a ∨ l.foldl min a ∈ l := by
  induction l generalizing a with
  | nil => left; rfl
  | cons q l ih =>
    simp only [List.foldl_cons]
    rcases ih (min a q) with h | h
    · rcases min_choice a q with h1 | h1
      · left; rw [h, h1]
      · right; rw [h, h1]; exact List.mem_cons_self q l
    · right; exact List.mem_cons_of_mem q h

/-- The quantity fold of the volume column is the sum over the mapped
quantities. -/
theorem foldl_add_eq_sum (l : List Tick) (a : ℚ) :
    l.foldl (fun s u => s + u.qty) a = a + (l.map Tick.qty).sum := by
  induction l generalizing a with
  | nil => simp
  | cons t l ih =>
    simp only [List.foldl_cons, List.map_cons, List.sum_cons, ih, add_assoc]

/-- The `last` aggregate of a non-empty bucket is one of its ticks. -/
theorem getLast_getD_mem (t0 : Tick) (rest : List Tick) :
    ((rest.getLast?).getD t0) ∈ t0 :: rest := by
  cases hgl : rest.getLast? with
  | none => simp
  | some u =>
    simp only [Option.getD_some]
    obtain ⟨hne, he⟩ := List.mem_getLast?_eq_getLast (Option.mem_def.mpr hgl)
    rw [he]
    exact List.mem_cons_of_mem t0 (List.getLast_mem hne)

/-- In a time-sorted tick list the head is chronologically first. -/
theorem sorted_ts_head_le (t0 : Tick) (rest : List Tick)
    (hs : ((t0 :: rest).map Tick.ts).Sorted (· ≤ ·)) :
    ∀ u ∈ t0 :: rest, t0.ts ≤ u.ts := by
  intro u hu
  rcases List.mem_cons.mp hu with h | h
  · subst h; exact le_refl _
  · simp only [List.map_cons] at hs
    exact (List.pairwise_cons.mp hs).1 u.ts (List.mem_map_of_mem Tick.ts h)

/-- In a time-sorted tick list the `last` aggregate is chronologically
last. -/
theorem sorted_ts_le_last (t0 : Tick) (rest : List Tick)
    (hs : ((t0 :: rest).map Tick.ts).Sorted (· ≤ ·)) :
    ∀ u ∈ t0 :: rest, u.ts ≤ ((rest.getLast?).getD t0).ts := by
  induction rest generalizing t0 with
  | nil =>
    intro u hu
    rcases List.mem_cons.mp hu with h | h
    · subst h; simp
    · cases h
  | cons t1 l ih =>
    have hs1 : ((t1 :: l).map Tick.ts).Sorted (· ≤ ·) := by
      simp only [List.map_cons] at hs ⊢
      exact (List.pairwise_cons.mp hs).2
    have h01 : t0.ts ≤ t1.ts := by
      simp only [List.map_cons] at hs
      exact (List.pairwise_cons.mp hs).1 t1.ts (by simp)
    have hlast : (((t1 :: l).getLast?).getD t0) = ((l.getLast?).getD t1) := by
      cases l with
      | nil => rfl
      | cons t2 l2 =>
        rw [List.getLast?_cons_cons]
        cases hgl : (t2 :: l2).getLast? with
        | none => simp at hgl
        | some u => rfl
    intro u hu
    rw [hlast]
    rcases List.mem_cons.mp hu with h | h
    · subst h
      exact le_trans h01 (ih t1 hs1 t1 (List.mem_cons_self t1 l))
    · exact ih t1 hs1 u h

/-- Filtering preserves time-sortedness. -/
theorem sorted_ts_filter (l : List Tick) (p : Tick → Bool)
    (hs : (l.map Tick.ts).Sorted (· ≤ ·)) :
    ((l.filter p).map Tick.ts).Sorted (· ≤ ·) :=
  List.Pairwise.sublist (List.Sublist.map Tick.ts (List.filter_sublist l)) hs

/-- Every resolved frequency — the three known ones and the silent
default — is a positive number of seconds. -/
theorem resolveFreq_pos (tf : String) : 0 < resolveFreq tf := by
  by_cases h1 : tf = "1s"
  · subst h1; decide
  · by_cases h2 : tf = "1m"
    · subst h2; decide
    · by_cases h3 : tf = "5m"
      · subst h3; decide
      · have hb1 : (tf == "1s") = false := beq_eq_false_iff_ne.mpr h1
        have hb2 : (tf == "1m") = false := beq_eq_false_iff_ne.mpr h2
        have hb3 : (tf == "5m") = false := beq_eq_false_iff_ne.mpr h3
        have hn : freq_map.lookup tf = none := by
          simp [freq_map, List.lookup, hb1, hb2, hb3]
        unfold resolveFreq
        rw [hn]
        decide

/-- Every bar a symbol pass emits comes from some bucket of that symbol's
ticks. -/
theorem mem_barsForSymbol (tf : String) (freq : Nat) (sym : String)
    (ticks : List Tick) (bar : Bar)
    (h : bar ∈ barsForSymbol tf freq sym ticks) :
    ∃ b, barOfBucket tf freq sym b
        (bucketTicks freq (ticks.filter (fun t => t.symbol == sym)) b) =
      some bar := by
  unfold barsForSymbol at h
  cases hm : (ticks.filter (fun t => t.symbol == sym)).map (bucketOf freq) with
  | nil =>
    simp only [hm] at h
    cases h
  | cons b0 bs =>
    simp only [hm] at h
    obtain ⟨b, _, he⟩ := List.mem_filterMap.mp h
    exact ⟨b, he⟩

/-- The OHLCV fields of a bar built from a non-empty bucket. -/
theorem barOfBucket_fields (tf : String) (freq : Nat) (sym : String) (b : Nat)
    (t0 : Tick) (rest : List Tick) (bar : Bar)
    (h : barOfBucket tf freq sym b (t0 :: rest) = some bar) :
    bar.symbol = sym ∧ bar.timeframe = tf ∧ bar.ts = b * freq ∧
    bar.open_px = t0.price ∧
    bar.high = rest.foldl (fun m u => max m u.price) t0.price ∧
    bar.low = rest.foldl (fun m u => min m u.price) t0.price ∧
    bar.close = ((rest.getLast?).getD t0).price ∧
    bar.volume = (t0 :: rest).foldl (fun s u => s + u.qty) 0 := by
  rw [barOfBucket] at h
  have hb := (Option.some_injective _ h).symm
  subst hb
  exact ⟨rfl, rfl, rfl, rfl, rfl, rfl, rfl, rfl⟩

/-- **C1.** For every bar `resample_ticks_to_bars` emits, provided the
stored ticks of that bar's symbol are in chronological order (the order the
per-symbol stream ingestor appends them), the bucket of ticks the bar came
from is non-empty and: open is the price of a chronologically first tick of
the bucket, close the price of a chronologically last one, high a tick
price that bounds all prices in the bucket from above, low one that bounds
them from below, and volume the sum of the quantities in the bucket. -/
theorem resample_bar_ohlcv (store : List Tick) (syms : List String)
    (tf : String) (now mb : Nat) (bar : Bar)
    (hbar : bar ∈ resample_ticks_to_bars store syms tf now mb)
    (hs : ((store.filter (fun t => t.symbol == bar.symbol)).map Tick.ts).Sorted
      (· ≤ ·)) :
    ∃ bt, bt = bucketTicks (resolveFreq tf)
        ((get_ticks store syms now mb).filter (fun t => t.symbol == bar.symbol))
        (bar.ts / resolveFreq tf) ∧
      bt ≠ [] ∧
      (∃ t1 ∈ bt, bar.open_px = t1.price ∧ ∀ u ∈ bt, t1.ts ≤ u.ts) ∧
      (∃ t2 ∈ bt, bar.close = t2.price ∧ ∀ u ∈ bt, u.ts ≤ t2.ts) ∧
      (bar.high ∈ bt.map Tick.price ∧ ∀ u ∈ bt, u.price ≤ bar.high) ∧
      (bar.low ∈ bt.map Tick.price ∧ ∀ u ∈ bt, bar.low ≤ u.price) ∧
      bar.volume = (bt.map Tick.qty).sum := by
  unfold resample_ticks_to_bars at hbar
  obtain ⟨sym, hsym, hbar2⟩ := List.mem_flatMap.mp hbar
  obtain ⟨b, hbb⟩ := mem_barsForSymbol tf (resolveFreq tf) sym
    (get_ticks store syms now mb) bar hbar2
  cases hbt : bucketTicks (resolveFreq tf)
      ((get_ticks store syms now mb).filter (fun t => t.symbol == sym)) b with
  | nil =>
    rw [hbt] at hbb
    cases hbb
  | cons t0 rest =>
    rw [hbt] at hbb
    obtain ⟨hsymb, htf, hts, hopen, hhigh, hlow, hclose, hvol⟩ :=
      barOfBucket_fields tf (resolveFreq tf) sym b t0 rest bar hbb
    have hfpos : 0 < resolveFreq tf := resolveFreq_pos tf
    have hbts : bar.ts / resolveFreq tf = b := by
      rw [hts]
      exact Nat.mul_div_cancel b hfpos
    -- the bucket tick list is time-sorted
    have hdfsub : List.Sublist (get_ticks store syms now mb) store := by
      unfold get_ticks
      exact (List.filter_sublist _).trans (List.filter_sublist _)
    have hsubsub : List.Sublist
        ((get_ticks store syms now mb).filter (fun t => t.symbol == sym))
        (store.filter (fun t => t.symbol == sym)) :=
      List.Sublist.filter _ hdfsub
    have hsort_sub : (((get_ticks store syms now mb).filter
        (fun t => t.symbol == sym)).map Tick.ts).Sorted (· ≤ ·) := by
      apply List.Pairwise.sublist (List.Sublist.map Tick.ts hsubsub)
      rw [hsymb] at hs
      exact hs
    have hsort_bt : ((t0 :: rest).map Tick.ts).Sorted (· ≤ ·) := by
      rw [← hbt]
      exact sorted_ts_filter _ _ hsort_sub
    refine ⟨t0 :: rest, ?_, by simp, ?_, ?_, ?_, ?_, ?_⟩
    · rw [hsymb, hbts, hbt]
    · exact ⟨t0, List.mem_cons_self t0 rest, hopen,
        sorted_ts_head_le t0 rest hsort_bt⟩
    · exact ⟨(rest.getLast?).getD t0, getLast_getD_mem t0 rest, hclose,
        sorted_ts_le_last t0 rest hsort_bt⟩
    · constructor
      · rw [hhigh, ← List.foldl_map]
        rcases foldl_max_mem (rest.map Tick.price) t0.price with h | h
        · rw [h]
          simp
        · simp only [List.map_cons]
          exact List.mem_cons_of_mem _ h
      · intro u hu
        rw [hhigh, ← List.foldl_map]
        rcases List.mem_cons.mp hu with h | h
        · subst h
          exact foldl_max_le_self (rest.map Tick.price) u.price
        · exact le_foldl_max (rest.map Tick.price) t0.price u.price
            (List.mem_map_of_mem Tick.price h)
    · constructor
      · rw [hlow, ← List.foldl_map]
        rcases foldl_min_mem (rest.map Tick.price) t0.price with h | h
        · rw [h]
          simp
        · simp only [List.map_cons]
          exact List.mem_cons_of_mem _ h
      · intro u hu
        rw [hlow, ← List.foldl_map]
        rcases List.mem_cons.mp hu with h | h
        · subst h
          exact foldl_min_le_self (rest.map Tick.price) u.price
        · exact foldl_min_le (rest.map Tick.price) t0.price u.price
            (List.mem_map_of_mem Tick.price h)
    · rw [hvol, foldl_add_eq_sum, zero_add]

/-- **C9.** A bucket containing no tick of a symbol contributes no bar: if
no fetched tick of symbol `sym` falls in bucket `b`, then no bar for `sym`
in the resample output starts at `b * freq` — empty buckets are dropped by
the `dropna`, never zero- or NaN-filled. -/
theorem empty_bucket_no_bar (store : List Tick) (syms : List String)
    (tf : String) (now mb : Nat) (b : Nat) (sym : String)
    (h : ∀ t ∈ get_ticks store syms now mb,
      t.symbol = sym → t.ts / resolveFreq tf ≠ b) :
    b * resolveFreq tf ∉
      ((resample_ticks_to_bars store syms tf now mb).filter
        (fun bar => bar.symbol == sym)).map Bar.ts := by
  intro hmem
  obtain ⟨bar, hbar, hbts⟩ := List.mem_map.mp hmem
  obtain ⟨hbar1, hbar2⟩ := List.mem_filter.mp hbar
  have hbsym : bar.symbol = sym := by simpa using hbar2
  unfold resample_ticks_to_bars at hbar1
  obtain ⟨sym2, hsym2, hbar3⟩ := List.mem_flatMap.mp hbar1
  obtain ⟨b2, hbb⟩ := mem_barsForSymbol tf (resolveFreq tf) sym2
    (get_ticks store syms now mb) bar hbar3
  cases hbt : bucketTicks (resolveFreq tf)
      ((get_ticks store syms now mb).filter (fun t => t.symbol == sym2)) b2 with
  | nil =>
    rw [hbt] at hbb
    cases hbb
  | cons t0 rest =>
    rw [hbt] at hbb
    obtain ⟨hsymb, _, hts, _⟩ :=
      barOfBucket_fields tf (resolveFreq tf) sym2 b2 t0 rest bar hbb
    have hfpos : 0 < resolveFreq tf := resolveFreq_pos tf
    have hb2 : b2 = b := by
      have : b2 * resolveFreq tf = b * resolveFreq tf := by rw [← hts, hbts]
      exact Nat.eq_of_mul_eq_mul_right hfpos this
    have ht0 : t0 ∈ bucketTicks (resolveFreq tf)
        ((get_ticks store syms now mb).filter (fun t => t.symbol == sym2)) b2 := by
      rw [hbt]
      exact List.mem_cons_self t0 rest
    unfold bucketTicks at ht0
    obtain ⟨ht01, ht02⟩ := List.mem_filter.mp ht0
    obtain ⟨ht03, ht04⟩ := List.mem_filter.mp ht01
    have ht0sym : t0.symbol = sym := by
      have h1 : t0.symbol = sym2 := by simpa using ht04
      rw [h1, ← hsymb, hbsym]
    have ht0b : bucketOf (resolveFreq tf) t0 = b2 := by simpa using ht02
    exact h t0 ht03 ht0sym (by rw [← hb2]; exact ht0b)

/-- Witness for C9: one tick at ts 0; bucket 1 of the 1-minute resample is
empty and yields no bar. -/
theorem empty_bucket_no_bar_witness :
    1 * resolveFreq "1m" ∉
      ((resample_ticks_to_bars exStore ["A"] "1m" 100 60).filter
        (fun bar => bar.symbol == "A")).map Bar.ts :=
  empty_bucket_no_bar exStore ["A"] "1m" 100 60 1 "A" (by decide)

/-- The single bar the 1-minute resample of `exStore` produces (its volume
is written as the fold `0 + 1` computes it). -/
def wBar : Bar :=
  { symbol := "A", timeframe := "1m", ts := 0, open_px := 10, high := 10,
    low := 10, close := 10, volume := 0 + 1 }

/-- The 1-minute resample of the one-tick store is exactly `[wBar]`. -/
theorem wBar_mem : resample_ticks_to_bars exStore ["A"] "1m" 100 60 = [wBar] := rfl

/-- Witness for C1: the conclusion instantiated at the concrete store and
its one bar. -/
theorem resample_bar_ohlcv_witness :
    ∃ bt, bt = bucketTicks (resolveFreq "1m")
        ((get_ticks exStore ["A"] 100 60).filter
          (fun t => t.symbol == wBar.symbol))
        (wBar.ts / resolveFreq "1m") ∧
      bt ≠ [] ∧
      (∃ t1 ∈ bt, wBar.open_px = t1.price ∧ ∀ u ∈ bt, t1.ts ≤ u.ts) ∧
      (∃ t2 ∈ bt, wBar.close = t2.price ∧ ∀ u ∈ bt, u.ts ≤ t2.ts) ∧
      (wBar.high ∈ bt.map Tick.price ∧ ∀ u ∈ bt, u.price ≤ wBar.high) ∧
      (wBar.low ∈ bt.map Tick.price ∧ ∀ u ∈ bt, wBar.low ≤ u.price) ∧
      wBar.volume = (bt.map Tick.qty).sum :=
  resample_bar_ohlcv exStore ["A"] "1m" 100 60 wBar
    (by rw [wBar_mem]; exact List.mem_cons_self wBar []) (by decide)
